import Mathlib

/-!
Verification of the dispatch engine of `Apps_script.py` (SendSpark bulk mailer).

The development shallowly embeds the components the specification talks about:

* `AdvancedRateLimiter` — the token bucket of lines 173-202 (floats modelled
  as exact rationals, `time.time()` values passed in explicitly);
* `HighPerformanceJobQueue` — the bounded worker-pool queue manager of lines
  205-311, modelled as a sequential state machine whose `get_completed_jobs`
  step is parametrised by the set of futures the executor has finished
  (a Boolean mask over the active list);
* the campaign orchestrator (`MailerApp` queue control, lines 2176-2546):
  batch slicing, start, stop-and-clear;
* the campaign preparation admission filter of lines 3136-3150;
* `process_spintax_in_text` (lines 2913-2950) and the dynamic-tag pass of
  `_resolve_all_placeholders_and_tags` (lines 2852-2908), with `random`
  calls abstracted into an explicit choice oracle.
-/

namespace AppsScript

/-! ### `AdvancedRateLimiter` — token bucket with burst (lines 173-202)

Python floats are modelled as rationals; `time.time()` readings are passed
in as explicit arguments (one per loop iteration of `acquire`). -/

structure AdvancedRateLimiter where
  emails_per_second : ℚ
  burst_size : ℚ
  tokens : ℚ
  last_update : ℚ

/-- Constructor of `AdvancedRateLimiter.__init__` (lines 174-179): the rate is
clamped to at least `0.1`, the burst size to at least `1`; the initial token
count is the *unclamped* `burst_size` argument (line 177), and `last_update`
is the current time. -/
def mkAdvancedRateLimiter (emailsPerSecond burstSize t0 : ℚ) : AdvancedRateLimiter :=
  { emails_per_second := max emailsPerSecond (1 / 10)
    burst_size := max burstSize 1
    tokens := burstSize
    last_update := t0 }

/-- Token refill of `acquire` (lines 187-191): add `elapsed × rate` tokens,
capped at the burst size, and move `last_update` to `now`. -/
def AdvancedRateLimiter.refill (s : AdvancedRateLimiter) (now : ℚ) : AdvancedRateLimiter :=
  { s with
    tokens := min s.burst_size (s.tokens + (now - s.last_update) * s.emails_per_second)
    last_update := now }

/-- One iteration of the `acquire` loop body (lines 186-195): refill, then if
at least one token is available consume one and succeed, else fail. -/
def AdvancedRateLimiter.tryAcquire (s : AdvancedRateLimiter) (now : ℚ) :
    Bool × AdvancedRateLimiter :=
  let r := s.refill now
  if 1 ≤ r.tokens then (true, { r with tokens := r.tokens - 1 }) else (false, r)

/-- A sequence of `acquire`-loop iterations at the given clock readings;
returns the number of successful acquisitions and the final limiter state.
This covers any sequence of `acquire` calls: each call performs one or more
such iterations, and each successful call corresponds to exactly one
successful iteration. -/
def AdvancedRateLimiter.acquireRun (s : AdvancedRateLimiter) :
    List ℚ → ℕ × AdvancedRateLimiter
  | [] => (0, s)
  | t :: ts =>
    let step := s.tryAcquire t
    let rest := step.2.acquireRun ts
    ((if step.1 then 1 else 0) + rest.1, rest.2)

lemma tryAcquire_eps (s : AdvancedRateLimiter) (t : ℚ) :
    (s.tryAcquire t).2.emails_per_second = s.emails_per_second := by
  simp only [AdvancedRateLimiter.tryAcquire, AdvancedRateLimiter.refill]
  split <;> rfl

lemma tryAcquire_burst (s : AdvancedRateLimiter) (t : ℚ) :
    (s.tryAcquire t).2.burst_size = s.burst_size := by
  simp only [AdvancedRateLimiter.tryAcquire, AdvancedRateLimiter.refill]
  split <;> rfl

lemma tryAcquire_last_update (s : AdvancedRateLimiter) (t : ℚ) :
    (s.tryAcquire t).2.last_update = t := by
  simp only [AdvancedRateLimiter.tryAcquire, AdvancedRateLimiter.refill]
  split <;> rfl

/-- Token conservation for one iteration: successes plus remaining tokens are
bounded by the incoming tokens plus the rate times the elapsed time. -/
lemma tryAcquire_conserve (s : AdvancedRateLimiter) (t : ℚ) :
    (if (s.tryAcquire t).1 then (1 : ℚ) else 0) + (s.tryAcquire t).2.tokens ≤
      s.tokens + s.emails_per_second * (t - s.last_update) := by
  have hcomm : (t - s.last_update) * s.emails_per_second =
      s.emails_per_second * (t - s.last_update) := by ring
  simp only [AdvancedRateLimiter.tryAcquire, AdvancedRateLimiter.refill]
  have hmin : min s.burst_size (s.tokens + (t - s.last_update) * s.emails_per_second) ≤
      s.tokens + (t - s.last_update) * s.emails_per_second := min_le_right _ _
  split
  · dsimp only; rw [if_pos rfl]; linarith [hmin, hcomm]
  · dsimp only; rw [if_neg Bool.false_ne_true]; linarith [hmin, hcomm]

/-- Token conservation over a run: the success count plus the final token
count never exceeds the initial token count plus rate times elapsed time. -/
lemma acquireRun_conserve (ts : List ℚ) (s : AdvancedRateLimiter) :
    ((s.acquireRun ts).1 : ℚ) + (s.acquireRun ts).2.tokens ≤
      s.tokens + s.emails_per_second * ((s.acquireRun ts).2.last_update - s.last_update) := by
  induction ts generalizing s with
  | nil => simp [AdvancedRateLimiter.acquireRun]
  | cons t ts ih =>
    have h1 := tryAcquire_conserve s t
    have h2 := ih (s.tryAcquire t).2
    rw [tryAcquire_eps] at h2
    rw [tryAcquire_last_update] at h2
    simp only [AdvancedRateLimiter.acquireRun]
    have hsplit : (((if (s.tryAcquire t).1 then 1 else 0) +
        ((s.tryAcquire t).2.acquireRun ts).1 : ℕ) : ℚ) =
        (if (s.tryAcquire t).1 then (1 : ℚ) else 0) +
        (((s.tryAcquire t).2.acquireRun ts).1 : ℚ) := by
      split <;> push_cast <;> ring
    rw [hsplit]
    nlinarith [h1, h2]

/-- The final `last_update` of a run is the last clock reading (or the
initial one for an empty run). -/
lemma acquireRun_last_update (ts : List ℚ) (s : AdvancedRateLimiter) :
    (s.acquireRun ts).2.last_update = ts.getLastD s.last_update := by
  induction ts generalizing s with
  | nil => simp [AdvancedRateLimiter.acquireRun]
  | cons t ts ih =>
    simp only [AdvancedRateLimiter.acquireRun, List.getLastD_cons]
    rw [ih, tryAcquire_last_update]

/-- Tokens stay nonnegative along a run, provided clock readings never go
backwards and the limiter parameters are nonnegative. -/
lemma acquireRun_tokens_nonneg (ts : List ℚ) (s : AdvancedRateLimiter)
    (heps : 0 ≤ s.emails_per_second) (hburst : 0 ≤ s.burst_size)
    (htok : 0 ≤ s.tokens) (hchain : List.Chain (· ≤ ·) s.last_update ts) :
    0 ≤ (s.acquireRun ts).2.tokens := by
  induction ts generalizing s with
  | nil => simpa [AdvancedRateLimiter.acquireRun] using htok
  | cons t ts ih =>
    rcases hchain with _ | ⟨hle, hchain⟩
    simp only [AdvancedRateLimiter.acquireRun]
    apply ih
    · rw [tryAcquire_eps]; exact heps
    · rw [tryAcquire_burst]; exact hburst
    · have helapsed : 0 ≤ (t - s.last_update) * s.emails_per_second :=
        mul_nonneg (by linarith) heps
      simp only [AdvancedRateLimiter.tryAcquire, AdvancedRateLimiter.refill]
      split
      · next h => dsimp only; linarith
      · next h => dsimp only; exact le_min hburst (by linarith)
    · rw [tryAcquire_last_update]; exact hchain

/-- The burst size is unchanged by a run. -/
lemma acquireRun_burst (ts : List ℚ) (s : AdvancedRateLimiter) :
    (s.acquireRun ts).2.burst_size = s.burst_size := by
  induction ts generalizing s with
  | nil => simp [AdvancedRateLimiter.acquireRun]
  | cons t ts ih =>
    simp only [AdvancedRateLimiter.acquireRun]
    rw [ih, tryAcquire_burst]

/-- The token count never exceeds the burst size after any run that starts
within the cap. -/
lemma acquireRun_tokens_le_burst (ts : List ℚ) (s : AdvancedRateLimiter)
    (htok : s.tokens ≤ s.burst_size) :
    (s.acquireRun ts).2.tokens ≤ s.burst_size := by
  induction ts generalizing s with
  | nil => simp only [AdvancedRateLimiter.acquireRun]; exact htok
  | cons t ts ih =>
    simp only [AdvancedRateLimiter.acquireRun]
    have hb := tryAcquire_burst s t
    have := ih (s.tryAcquire t).2 (by
      rw [hb]
      simp only [AdvancedRateLimiter.tryAcquire, AdvancedRateLimiter.refill]
      split
      · next h =>
        dsimp only
        have := min_le_left s.burst_size (s.tokens + (t - s.last_update) * s.emails_per_second)
        linarith
      · next h => dsimp only; exact min_le_left _ _)
    rwa [hb] at this

/-- C2: for every `AdvancedRateLimiter` with configured rate `R` and burst
capacity `B` (the clamped `__init__` values), and every nondecreasing
sequence of clock readings spanning total elapsed time `T`, the number of
successful acquisitions is at most `B + R×T`; moreover the stored token
count stays capped at the burst capacity. -/
theorem advancedRateLimiter_success_bound
    (emailsPerSecond burstSize t0 : ℚ) (ts : List ℚ)
    (hb : 0 ≤ burstSize)
    (hchain : List.Chain (· ≤ ·) t0 ts) :
    (((mkAdvancedRateLimiter emailsPerSecond burstSize t0).acquireRun ts).1 : ℚ) ≤
      (mkAdvancedRateLimiter emailsPerSecond burstSize t0).burst_size +
      (mkAdvancedRateLimiter emailsPerSecond burstSize t0).emails_per_second *
        (ts.getLastD t0 - t0) ∧
    ((mkAdvancedRateLimiter emailsPerSecond burstSize t0).acquireRun ts).2.tokens ≤
      (mkAdvancedRateLimiter emailsPerSecond burstSize t0).burst_size := by
  set s0 := mkAdvancedRateLimiter emailsPerSecond burstSize t0 with hs0
  have heps : 0 ≤ s0.emails_per_second := by
    rw [hs0]; simp only [mkAdvancedRateLimiter]
    have : (0 : ℚ) ≤ 1 / 10 := by norm_num
    exact le_trans this (le_max_right _ _)
  have hburst : 0 ≤ s0.burst_size := by
    rw [hs0]; simp only [mkAdvancedRateLimiter]
    exact le_trans zero_le_one (le_max_right _ _)
  have htok0 : 0 ≤ s0.tokens := by rw [hs0]; simpa [mkAdvancedRateLimiter] using hb
  have htokB : s0.tokens ≤ s0.burst_size := by
    rw [hs0]; simpa [mkAdvancedRateLimiter] using le_max_left burstSize 1
  have hlu : s0.last_update = t0 := by rw [hs0]; rfl
  constructor
  · have hcons := acquireRun_conserve ts s0
    have hnn := acquireRun_tokens_nonneg ts s0 heps hburst htok0 (by rwa [hlu])
    have hfin := acquireRun_last_update ts s0
    rw [hfin, hlu] at hcons
    linarith
  · exact acquireRun_tokens_le_burst ts s0 htokB

/-- Witness for C2: a concrete two-attempt run at rate 1, burst 2. -/
theorem advancedRateLimiter_success_bound_witness :
    (0 : ℚ) ≤ 2 ∧ List.Chain (· ≤ ·) (0 : ℚ) [0, 1] ∧
    ((((mkAdvancedRateLimiter 1 2 0).acquireRun [0, 1]).1 : ℚ) ≤
      (mkAdvancedRateLimiter 1 2 0).burst_size +
      (mkAdvancedRateLimiter 1 2 0).emails_per_second *
        (([0, 1] : List ℚ).getLastD 0 - 0)) :=
  ⟨by norm_num, by simp [List.chain_cons],
    (advancedRateLimiter_success_bound 1 2 0 [0, 1] (by norm_num)
      (by simp [List.chain_cons])).1⟩

/-! ### `HighPerformanceJobQueue` — bounded worker-pool job queue (lines 205-311)

The queue manager is modelled as a sequential state machine.  Jobs are
identified by natural numbers.  The executor's nondeterminism (which futures
have finished when `get_completed_jobs` runs) is captured by a Boolean mask
over the active-futures list.  Two ghost logs instrument the state:
`add_log` records every job passed to `add_job`, `submit_log` records every
job submitted to the executor (`executor.submit` at lines 231 and 268). -/

structure HighPerformanceJobQueue where
  job_queue : List ℕ
  active_futures : List ℕ
  completed_jobs_count : ℕ
  total_jobs_submitted_to_q : ℕ
  is_running : Bool
  add_log : List ℕ
  submit_log : List ℕ

/-- Fresh queue manager (`__init__`, lines 206-214). -/
def hpjqInit : HighPerformanceJobQueue :=
  { job_queue := [], active_futures := [], completed_jobs_count := 0
    total_jobs_submitted_to_q := 0, is_running := false, add_log := [], submit_log := [] }

/-- `add_job` (lines 216-220): enqueue into the FIFO and count it. -/
def HighPerformanceJobQueue.add_job (s : HighPerformanceJobQueue) (j : ℕ) :
    HighPerformanceJobQueue :=
  { s with job_queue := s.job_queue ++ [j]
           total_jobs_submitted_to_q := s.total_jobs_submitted_to_q + 1
           add_log := s.add_log ++ [j] }

/-- `start_processing` (lines 222-239): set `is_running`, then submit the
first `min maxConcurrentTasks qsize` FIFO jobs to the executor. -/
def HighPerformanceJobQueue.start_processing (s : HighPerformanceJobQueue)
    (maxConcurrentTasks : ℕ) : HighPerformanceJobQueue :=
  let m := min maxConcurrentTasks s.job_queue.length
  { s with is_running := true
           job_queue := s.job_queue.drop m
           active_futures := s.active_futures ++ s.job_queue.take m
           submit_log := s.submit_log ++ s.job_queue.take m }

/-- Scan of lines 247-249: split the active list into the futures reported
done by the mask (in order) and the rest (in order). -/
def selectDone : List ℕ → List Bool → List ℕ × List ℕ
  | [], _ => ([], [])
  | a, [] => ([], a)
  | j :: rest, d :: ms =>
    let r := selectDone rest ms
    if d then (j :: r.1, r.2) else (r.1, j :: r.2)

/-- Loop of lines 251-275 over the done futures: each one bumps
`completed_jobs_count` and, if still running and the FIFO is non-empty,
submits the next FIFO job (appended to the executor's active set). -/
def processDone : HighPerformanceJobQueue → List ℕ → HighPerformanceJobQueue
  | s, [] => s
  | s, _ :: ds =>
    if s.is_running then
      match s.job_queue with
      | [] => processDone { s with completed_jobs_count := s.completed_jobs_count + 1 } ds
      | f :: rest =>
        processDone
          { s with completed_jobs_count := s.completed_jobs_count + 1
                   job_queue := rest
                   active_futures := s.active_futures ++ [f]
                   submit_log := s.submit_log ++ [f] } ds
    else processDone { s with completed_jobs_count := s.completed_jobs_count + 1 } ds

/-- `get_completed_jobs` (lines 241-277): drain the done futures given by
the mask, then process each one. -/
def HighPerformanceJobQueue.get_completed_jobs (s : HighPerformanceJobQueue)
    (doneMask : List Bool) : HighPerformanceJobQueue :=
  let dn := selectDone s.active_futures doneMask
  processDone { s with active_futures := dn.2 } dn.1

/-- `stop` (lines 286-302): flag no further admission.  Cancelling a future
does not remove it from `active_futures`, and the executor shutdown touches
none of the modelled fields. -/
def HighPerformanceJobQueue.stop (s : HighPerformanceJobQueue) : HighPerformanceJobQueue :=
  { s with is_running := false }

/-- `is_finished` (lines 304-311): FIFO empty, no active futures, and
`completed_jobs_count >= total_jobs_submitted_to_q`. -/
def HighPerformanceJobQueue.is_finished (s : HighPerformanceJobQueue) : Bool :=
  s.job_queue.isEmpty && (s.active_futures.length == 0) &&
    (s.total_jobs_submitted_to_q ≤ s.completed_jobs_count)

/-- The operations the owning batch worker performs on its queue manager. -/
inductive QueueOp where
  | add (j : ℕ)
  | start (maxConcurrentTasks : ℕ)
  | poll (doneMask : List Bool)
  | stop

def applyQueueOp (s : HighPerformanceJobQueue) : QueueOp → HighPerformanceJobQueue
  | .add j => s.add_job j
  | .start k => s.start_processing k
  | .poll m => s.get_completed_jobs m
  | .stop => s.stop

/-- A queue manager reached from a fresh instance by a sequence of calls. -/
def runQueueOps (ops : List QueueOp) : HighPerformanceJobQueue :=
  ops.foldl applyQueueOp hpjqInit

/-- The accounting invariant of the queue manager: every added job is either
still in the FIFO or has been submitted (in order), every submitted job is
either active or completed, and the total counter counts the additions. -/
def QueueInv (s : HighPerformanceJobQueue) : Prop :=
  s.add_log = s.submit_log ++ s.job_queue ∧
  s.completed_jobs_count + s.active_futures.length = s.submit_log.length ∧
  s.total_jobs_submitted_to_q = s.add_log.length

lemma selectDone_length (a : List ℕ) (m : List Bool) :
    (selectDone a m).1.length + (selectDone a m).2.length = a.length := by
  induction a generalizing m with
  | nil => cases m <;> simp [selectDone]
  | cons j rest ih =>
    cases m with
    | nil => simp [selectDone]
    | cons d ms =>
      simp only [selectDone]
      split <;> simp <;> have := ih ms <;> omega

lemma processDone_add_log (ds : List ℕ) (s : HighPerformanceJobQueue) :
    (processDone s ds).add_log = s.add_log := by
  induction ds generalizing s with
  | nil => rfl
  | cons d ds ih =>
    simp only [processDone]
    split
    · cases hq : s.job_queue <;> simp [ih]
    · simp [ih]

lemma processDone_total (ds : List ℕ) (s : HighPerformanceJobQueue) :
    (processDone s ds).total_jobs_submitted_to_q = s.total_jobs_submitted_to_q := by
  induction ds generalizing s with
  | nil => rfl
  | cons d ds ih =>
    simp only [processDone]
    split
    · cases hq : s.job_queue <;> simp [ih]
    · simp [ih]

lemma processDone_is_running (ds : List ℕ) (s : HighPerformanceJobQueue) :
    (processDone s ds).is_running = s.is_running := by
  induction ds generalizing s with
  | nil => rfl
  | cons d ds ih =>
    simp only [processDone]
    split
    · cases hq : s.job_queue <;> simp [ih]
    · simp [ih]

lemma processDone_fifo_submit (ds : List ℕ) (s : HighPerformanceJobQueue)
    (h : s.add_log = s.submit_log ++ s.job_queue) :
    (processDone s ds).add_log =
      (processDone s ds).submit_log ++ (processDone s ds).job_queue := by
  induction ds generalizing s with
  | nil => exact h
  | cons d ds ih =>
    simp only [processDone]
    split
    · cases hq : s.job_queue with
      | nil => exact ih _ (by simpa [hq] using h)
      | cons f rest =>
        apply ih
        simp only
        rw [h, hq]
        simp
    · exact ih _ h

lemma processDone_count (ds : List ℕ) (s : HighPerformanceJobQueue)
    (h : s.completed_jobs_count + ds.length + s.active_futures.length =
      s.submit_log.length) :
    (processDone s ds).completed_jobs_count + (processDone s ds).active_futures.length =
      (processDone s ds).submit_log.length := by
  induction ds generalizing s with
  | nil => simpa using h
  | cons d ds ih =>
    simp only [List.length_cons] at h
    simp only [processDone]
    split
    · cases hq : s.job_queue with
      | nil =>
        apply ih
        dsimp only
        omega
      | cons f rest =>
        apply ih
        dsimp only
        simp only [List.length_append, List.length_cons, List.length_nil]
        omega
    · apply ih
      dsimp only
      omega

lemma processDone_active_le (ds : List ℕ) (s : HighPerformanceJobQueue) :
    (processDone s ds).active_futures.length ≤ s.active_futures.length + ds.length := by
  induction ds generalizing s with
  | nil => simp [processDone]
  | cons d ds ih =>
    simp only [processDone]
    split
    · cases hq : s.job_queue with
      | nil =>
        refine le_trans (ih _) ?_
        dsimp only
        simp only [List.length_cons]
        omega
      | cons f rest =>
        refine le_trans (ih _) ?_
        dsimp only
        simp only [List.length_append, List.length_cons, List.length_nil]
        omega
    · refine le_trans (ih _) ?_
      dsimp only
      simp only [List.length_cons]
      omega

lemma queueInv_init : QueueInv hpjqInit := by
  refine ⟨rfl, rfl, rfl⟩

lemma queueInv_applyOp (s : HighPerformanceJobQueue) (op : QueueOp)
    (h : QueueInv s) : QueueInv (applyQueueOp s op) := by
  obtain ⟨h1, h2, h3⟩ := h
  cases op with
  | add j =>
    refine ⟨?_, ?_, ?_⟩ <;>
      simp [applyQueueOp, HighPerformanceJobQueue.add_job, h1, h2, h3] <;> omega
  | start k =>
    refine ⟨?_, ?_, ?_⟩ <;>
      simp [applyQueueOp, HighPerformanceJobQueue.start_processing, h1, h2, h3] <;> omega
  | poll m =>
    have hlen := selectDone_length s.active_futures m
    refine ⟨?_, ?_, ?_⟩
    · simp only [applyQueueOp, HighPerformanceJobQueue.get_completed_jobs]
      apply processDone_fifo_submit
      dsimp only
      exact h1
    · simp only [applyQueueOp, HighPerformanceJobQueue.get_completed_jobs]
      apply processDone_count
      dsimp only
      omega
    · simp only [applyQueueOp, HighPerformanceJobQueue.get_completed_jobs]
      rw [processDone_total, processDone_add_log]
      dsimp only
      exact h3
  | stop => exact ⟨h1, h2, h3⟩

lemma queueInv_foldl (ops : List QueueOp) (s : HighPerformanceJobQueue)
    (h : QueueInv s) : QueueInv (ops.foldl applyQueueOp s) := by
  induction ops generalizing s with
  | nil => exact h
  | cons op ops ih => exact ih _ (queueInv_applyOp s op h)

lemma queueInv_runOps (ops : List QueueOp) : QueueInv (runQueueOps ops) :=
  queueInv_foldl ops hpjqInit queueInv_init

/-- C4: `is_finished` returns true exactly when the FIFO is empty, no
futures are active, and the completed count equals the total ever submitted
via `add_job` — for every queue manager reachable by a sequence of calls on
a fresh instance (the source tests `completed >= total`, but the accounting
invariant makes `completed > total` unreachable). -/
theorem is_finished_iff_counts (ops : List QueueOp) :
    (runQueueOps ops).is_finished = true ↔
      ((runQueueOps ops).job_queue = [] ∧ (runQueueOps ops).active_futures = [] ∧
       (runQueueOps ops).completed_jobs_count = (runQueueOps ops).total_jobs_submitted_to_q) := by
  obtain ⟨h1, h2, h3⟩ := queueInv_runOps ops
  set s := runQueueOps ops with hs
  simp only [HighPerformanceJobQueue.is_finished, Bool.and_eq_true, List.isEmpty_iff,
    beq_iff_eq, decide_eq_true_eq, List.length_eq_zero]
  constructor
  · rintro ⟨⟨hq, ha⟩, hc⟩
    refine ⟨hq, ha, ?_⟩
    rw [hq] at h1
    rw [ha] at h2
    simp at h1 h2
    have hlen : s.add_log.length = s.submit_log.length := by rw [h1]
    omega
  · rintro ⟨hq, ha, hc⟩
    rw [hq] at h1
    rw [ha] at h2
    simp at h1 h2
    have hlen : s.add_log.length = s.submit_log.length := by rw [h1]
    refine ⟨⟨hq, ha⟩, by omega⟩

/-- A batch worker's usage of its queue manager (lines 577-612): add every
batch job, call `start_processing` once, then poll repeatedly. -/
def runBatch (batch : List ℕ) (maxConcurrentTasks : ℕ) (polls : List (List Bool)) :
    HighPerformanceJobQueue :=
  runQueueOps (batch.map QueueOp.add ++ [QueueOp.start maxConcurrentTasks] ++
    polls.map QueueOp.poll)

lemma foldl_add_state (batch : List ℕ) (s : HighPerformanceJobQueue) :
    ((batch.map QueueOp.add).foldl applyQueueOp s).add_log = s.add_log ++ batch ∧
    ((batch.map QueueOp.add).foldl applyQueueOp s).active_futures = s.active_futures := by
  induction batch generalizing s with
  | nil => simp
  | cons j rest ih =>
    simp only [List.map_cons, List.foldl_cons, applyQueueOp]
    obtain ⟨ha, hb⟩ := ih (s.add_job j)
    refine ⟨?_, ?_⟩
    · rw [ha]; simp [HighPerformanceJobQueue.add_job]
    · rw [hb]; simp [HighPerformanceJobQueue.add_job]

lemma foldl_poll_add_log (polls : List (List Bool)) (s : HighPerformanceJobQueue) :
    ((polls.map QueueOp.poll).foldl applyQueueOp s).add_log = s.add_log := by
  induction polls generalizing s with
  | nil => rfl
  | cons m rest ih =>
    simp only [List.map_cons, List.foldl_cons]
    rw [ih]
    simp [applyQueueOp, HighPerformanceJobQueue.get_completed_jobs, processDone_add_log]

lemma runBatch_add_log (batch : List ℕ) (k : ℕ) (polls : List (List Bool)) :
    (runBatch batch k polls).add_log = batch := by
  simp only [runBatch, runQueueOps, List.foldl_append]
  rw [foldl_poll_add_log]
  simp only [List.foldl_cons, List.foldl_nil]
  have : (applyQueueOp ((batch.map QueueOp.add).foldl applyQueueOp hpjqInit)
      (QueueOp.start k)).add_log =
      ((batch.map QueueOp.add).foldl applyQueueOp hpjqInit).add_log := by
    simp [applyQueueOp, HighPerformanceJobQueue.start_processing]
  rw [this, (foldl_add_state batch hpjqInit).1]
  rfl

lemma foldl_poll_active_le (polls : List (List Bool)) (s : HighPerformanceJobQueue)
    (k : ℕ) (h : s.active_futures.length ≤ k) :
    ((polls.map QueueOp.poll).foldl applyQueueOp s).active_futures.length ≤ k := by
  induction polls generalizing s with
  | nil => exact h
  | cons m rest ih =>
    simp only [List.map_cons, List.foldl_cons]
    apply ih
    simp only [applyQueueOp, HighPerformanceJobQueue.get_completed_jobs]
    have hsel := selectDone_length s.active_futures m
    have hp := processDone_active_le (selectDone s.active_futures m).1
      { s with active_futures := (selectDone s.active_futures m).2 }
    simp only at hp
    omega

/-- C7: over a batch worker's whole usage pattern, the number of active
futures never exceeds `max_concurrent_tasks` — `start_processing` submits at
most that many initial tasks and `get_completed_jobs` submits at most one
task per drained future.  Quantifying over every poll sequence covers every
reachable state of the run. -/
theorem active_futures_never_exceed_concurrency (batch : List ℕ) (k : ℕ)
    (polls : List (List Bool)) :
    (runBatch batch k polls).active_futures.length ≤ k := by
  simp only [runBatch, runQueueOps, List.foldl_append]
  apply foldl_poll_active_le
  simp only [List.foldl_cons, List.foldl_nil, applyQueueOp,
    HighPerformanceJobQueue.start_processing]
  rw [(foldl_add_state batch hpjqInit).2]
  simp [hpjqInit]

/-! ### Campaign orchestrator — batch dispatch (lines 2217-2269)

`dispatch_next_email_batch_to_worker` is driven by Qt's single event loop:
all its invocations run sequentially on the control thread.  Each attempt
sees the pause/active flags of that moment (arbitrary here, to cover
pause/resume patterns); a successful attempt hands the slice
`email_job_queue[cursor : min(cursor+batchSize, len)]` to a fresh batch
worker and advances the cursor by the slice length.  The `dispatched_batches`
field is a ghost log of the slices handed to workers. -/

structure DispatchState (α : Type) where
  current_job_index_for_dispatch : ℕ
  dispatched_batches : List (List α)

/-- One invocation of `dispatch_next_email_batch_to_worker`: return
unchanged if paused or not active (lines 2219-2222), or if the cursor has
reached the end (lines 2225-2230), or if the slice is empty (lines
2237-2239); otherwise dispatch the slice and advance the cursor (lines
2233-2268). -/
def dispatch_next_email_batch {α : Type} (emailJobQueue : List α) (batchSize : ℕ)
    (isPausedFlag queueProcessingActive : Bool) (s : DispatchState α) :
    DispatchState α :=
  if isPausedFlag || !queueProcessingActive then s
  else if emailJobQueue.length ≤ s.current_job_index_for_dispatch then s
  else
    let slice := (emailJobQueue.drop s.current_job_index_for_dispatch).take batchSize
    if slice.isEmpty then s
    else
      { current_job_index_for_dispatch := s.current_job_index_for_dispatch + slice.length
        dispatched_batches := s.dispatched_batches ++ [slice] }

/-- A sequence of dispatch attempts from cursor 0, each under its own
(paused, active) flags — covering runs with pauses and resumes. -/
def runDispatch {α : Type} (emailJobQueue : List α) (batchSize : ℕ)
    (flags : List (Bool × Bool)) : DispatchState α :=
  flags.foldl
    (fun s f => dispatch_next_email_batch emailJobQueue batchSize f.1 f.2 s)
    ⟨0, []⟩

lemma dispatch_step_inv {α : Type} (jobs : List α) (K : ℕ) (p a : Bool)
    (s : DispatchState α)
    (h : s.dispatched_batches.flatten = jobs.take s.current_job_index_for_dispatch) :
    (dispatch_next_email_batch jobs K p a s).dispatched_batches.flatten =
      jobs.take (dispatch_next_email_batch jobs K p a s).current_job_index_for_dispatch := by
  simp only [dispatch_next_email_batch]
  split
  · exact h
  · split
    · exact h
    · next hcur =>
      split
      · exact h
      · next hne =>
        dsimp only
        rw [List.flatten_append, h]
        simp only [List.flatten, List.append_nil]
        set c := s.current_job_index_for_dispatch with hc
        have hlen : ((jobs.drop c).take K).length = min K (jobs.length - c) := by
          simp [List.length_take, List.length_drop]
        rw [hlen]
        rcases le_or_lt K (jobs.length - c) with hK | hK
        · rw [min_eq_left hK, ← List.take_add]
        · rw [min_eq_right (le_of_lt hK), ← List.take_add]
          have h1 : jobs.length ≤ c + K := by omega
          have h2 : jobs.length ≤ c + (jobs.length - c) := by omega
          rw [List.take_of_length_le h1, List.take_of_length_le h2]

lemma runDispatch_join {α : Type} (jobs : List α) (K : ℕ)
    (flags : List (Bool × Bool)) :
    (runDispatch jobs K flags).dispatched_batches.flatten =
      jobs.take (runDispatch jobs K flags).current_job_index_for_dispatch := by
  suffices h : ∀ (s : DispatchState α),
      s.dispatched_batches.flatten = jobs.take s.current_job_index_for_dispatch →
      (flags.foldl
        (fun s f => dispatch_next_email_batch jobs K f.1 f.2 s) s).dispatched_batches.flatten =
        jobs.take (flags.foldl
          (fun s f => dispatch_next_email_batch jobs K f.1 f.2 s)
            s).current_job_index_for_dispatch by
    exact h ⟨0, []⟩ (by simp)
  induction flags with
  | nil => intro s h; exact h
  | cons f fs ih =>
    intro s h
    exact ih _ (dispatch_step_inv jobs K f.1 f.2 s h)

/-- C1: over a full campaign run (any pattern of pause/resume flags, no
stop), the dispatcher hands out disjoint contiguous slices whose
concatenation, once the cursor has passed the end of the job list, is
exactly the job list; and a batch worker's queue manager, once
`is_finished`, has submitted to the executor (hence to the transport
function) exactly the jobs added to it, in order — each job exactly once. -/
theorem every_job_dispatched_and_submitted_exactly_once :
    (∀ (jobs : List ℕ) (batchSize : ℕ) (flags : List (Bool × Bool)),
      jobs.length ≤ (runDispatch jobs batchSize flags).current_job_index_for_dispatch →
      (runDispatch jobs batchSize flags).dispatched_batches.flatten = jobs) ∧
    (∀ (batch : List ℕ) (maxConcurrentTasks : ℕ) (polls : List (List Bool)),
      (runBatch batch maxConcurrentTasks polls).is_finished = true →
      (runBatch batch maxConcurrentTasks polls).submit_log = batch) := by
  constructor
  · intro jobs K flags hdone
    rw [runDispatch_join, List.take_of_length_le hdone]
  · intro batch k polls hfin
    have hq : (runBatch batch k polls).job_queue = [] := by
      simp only [HighPerformanceJobQueue.is_finished, Bool.and_eq_true,
        List.isEmpty_iff] at hfin
      exact hfin.1.1
    obtain ⟨h1, _, _⟩ := queueInv_runOps (batch.map QueueOp.add ++
      [QueueOp.start k] ++ polls.map QueueOp.poll)
    rw [show runQueueOps (batch.map QueueOp.add ++ [QueueOp.start k] ++
      polls.map QueueOp.poll) = runBatch batch k polls from rfl] at h1
    rw [hq, List.append_nil] at h1
    rw [← h1, runBatch_add_log]

/-- Witness for C1: a three-job campaign with batch size 2 and a two-job
batch polled to completion. -/
theorem every_job_dispatched_and_submitted_exactly_once_witness :
    (([1, 2, 3] : List ℕ).length ≤
      (runDispatch [1, 2, 3] 2 [(false, true), (false, true)]).current_job_index_for_dispatch ∧
     (runDispatch ([1, 2, 3] : List ℕ) 2
        [(false, true), (false, true)]).dispatched_batches.flatten = [1, 2, 3]) ∧
    ((runBatch [7, 8] 1 [[true], [true]]).is_finished = true ∧
     (runBatch [7, 8] 1 [[true], [true]]).submit_log = [7, 8]) :=
  ⟨⟨by decide,
    every_job_dispatched_and_submitted_exactly_once.1 [1, 2, 3] 2
      [(false, true), (false, true)] (by decide)⟩,
   ⟨by decide,
    every_job_dispatched_and_submitted_exactly_once.2 [7, 8] 1 [[true], [true]]
      (by decide)⟩⟩

/-! ### Campaign orchestrator — control state of `MailerApp`

The fields mirror the `MailerApp` attributes driving queue processing.  A
batch worker is represented by the slice of jobs it was given.  Recipients
and job ids are represented by natural numbers. -/

structure EmailJob where
  job_id : ℕ
  recipients_to_list : List ℕ
deriving DecidableEq

structure MailerState where
  email_job_queue : List EmailJob
  current_job_index_for_dispatch : ℕ
  active_batch_send_workers : List (List EmailJob)
  active_test_email_workers : List ℕ
  queue_processing_active : Bool
  is_paused_flag : Bool
  total_emails_processed_overall : ℕ
  total_emails_successful_overall : ℕ
  overall_processing_start_time : ℚ
  overall_processing_end_time : ℚ
  primary_emails_sent_since_last_test : ℕ
deriving DecidableEq

/-- `finalize_overall_queue_processing` (lines 2368-2396): clear the active
and paused flags and record the end time (the rest is display only). -/
def MailerState.finalize_overall_queue_processing (s : MailerState) (now : ℚ) :
    MailerState :=
  { s with queue_processing_active := false
           is_paused_flag := false
           overall_processing_end_time := now }

/-- `dispatch_next_email_batch_to_worker` (lines 2217-2269) acting on the
full orchestrator state: a no-op when paused or inactive; finalization when
everything is dispatched and no worker is active; otherwise the next slice
is handed to a fresh batch worker and the cursor advances. -/
def MailerState.dispatch_next_email_batch_to_worker (s : MailerState)
    (batchSize : ℕ) (now : ℚ) : MailerState :=
  if s.is_paused_flag || !s.queue_processing_active then s
  else if s.email_job_queue.length ≤ s.current_job_index_for_dispatch then
    if s.active_batch_send_workers.isEmpty then
      s.finalize_overall_queue_processing now
    else s
  else
    let slice := (s.email_job_queue.drop s.current_job_index_for_dispatch).take batchSize
    if slice.isEmpty then
      if s.active_batch_send_workers.isEmpty then
        s.finalize_overall_queue_processing now
      else s
    else
      { s with active_batch_send_workers := s.active_batch_send_workers ++ [slice]
               current_job_index_for_dispatch :=
                 s.current_job_index_for_dispatch + slice.length }

/-- `action_stop_queue_processing_and_clear` (lines 2462-2546): early return
when there is nothing to stop; otherwise, when the user confirms, deactivate,
force the paused flag, signal and drain every worker, clear both worker
lists, clear the job queue, and reset the dispatch cursor. -/
def MailerState.action_stop_queue_processing_and_clear (s : MailerState)
    (confirmed : Bool) (now : ℚ) : MailerState :=
  if !s.queue_processing_active && s.email_job_queue.isEmpty &&
      s.active_batch_send_workers.isEmpty && s.active_test_email_workers.isEmpty then s
  else if !confirmed then s
  else
    { s with queue_processing_active := false
             is_paused_flag := true
             active_batch_send_workers := []
             active_test_email_workers := []
             email_job_queue := []
             current_job_index_for_dispatch := 0
             overall_processing_end_time := now }

/-- `action_start_queue_processing` (lines 2176-2215), up to the final
dispatch call (which is modelled separately as a `dispatch` attempt): early
returns for an empty queue, an already-running campaign, or a failed sender
configuration check; otherwise activate, clear the paused flag, reset the
aggregate counters and the start time only when the cursor is at 0, always
reset the test counter, and reset the cursor to 0 when it has reached the
end of the queue. -/
def MailerState.action_start_queue_processing (s : MailerState) (now : ℚ)
    (configOk : Bool) : MailerState :=
  if s.email_job_queue.isEmpty then s
  else if s.queue_processing_active && !s.is_paused_flag then s
  else if !configOk then s
  else
    let s1 := { s with queue_processing_active := true, is_paused_flag := false }
    let s2 :=
      if s1.current_job_index_for_dispatch = 0 then
        { s1 with overall_processing_start_time := now
                  total_emails_processed_overall := 0
                  total_emails_successful_overall := 0 }
      else s1
    let s3 := { s2 with primary_emails_sent_since_last_test := 0 }
    if s3.email_job_queue.length ≤ s3.current_job_index_for_dispatch then
      { s3 with current_job_index_for_dispatch := 0 }
    else s3

/-- `on_batch_worker_finished` (lines 2288-2305) restricted to the state
fields: remove the worker from the active list and *add* the batch counters
onto the campaign aggregates. -/
def MailerState.on_batch_worker_finished (s : MailerState) (w : List EmailJob)
    (completedInBatch successfulInBatch : ℕ) : MailerState :=
  { s with active_batch_send_workers := s.active_batch_send_workers.erase w
           total_emails_processed_overall :=
             s.total_emails_processed_overall + completedInBatch
           total_emails_successful_overall :=
             s.total_emails_successful_overall + successfulInBatch }

/-- C9: after a confirmed stop with jobs still undispatched, the campaign
job list is empty, the dispatch cursor is 0, both active-worker lists are
empty, and a subsequent dispatch attempt is a strict no-op (the orchestrator
makes no further transport submissions: the paused flag and the inactive
flag gate line 2219). -/
theorem stop_clears_pending_work (s : MailerState) (now later : ℚ) (batchSize : ℕ)
    (hund : s.current_job_index_for_dispatch < s.email_job_queue.length) :
    (s.action_stop_queue_processing_and_clear true now).email_job_queue = [] ∧
    (s.action_stop_queue_processing_and_clear true now).current_job_index_for_dispatch = 0 ∧
    (s.action_stop_queue_processing_and_clear true now).active_batch_send_workers = [] ∧
    (s.action_stop_queue_processing_and_clear true now).active_test_email_workers = [] ∧
    (s.action_stop_queue_processing_and_clear true now).dispatch_next_email_batch_to_worker
        batchSize later =
      s.action_stop_queue_processing_and_clear true now := by
  have hne : s.email_job_queue.isEmpty = false := by
    cases hq : s.email_job_queue with
    | nil => rw [hq] at hund; simp at hund
    | cons a l => rfl
  have hguard : (!s.queue_processing_active && s.email_job_queue.isEmpty &&
      s.active_batch_send_workers.isEmpty && s.active_test_email_workers.isEmpty) = false := by
    rw [hne]
    simp
  simp only [MailerState.action_stop_queue_processing_and_clear, hguard]
  simp only [Bool.false_eq_true, if_false, Bool.not_true]
  refine ⟨trivial, trivial, trivial, trivial, ?_⟩
  simp [MailerState.dispatch_next_email_batch_to_worker]

/-- Witness for C9: a one-job campaign stopped before dispatching. -/
theorem stop_clears_pending_work_witness :
    (0 : ℕ) <
      (MailerState.mk [⟨1, [4]⟩] 0 [] [] true false 0 0 0 0 0).email_job_queue.length ∧
    ((MailerState.mk [⟨1, [4]⟩] 0 [] [] true false 0 0 0 0
        0).action_stop_queue_processing_and_clear true 5).email_job_queue = [] :=
  ⟨by decide,
    (stop_clears_pending_work (MailerState.mk [⟨1, [4]⟩] 0 [] [] true false 0 0 0 0 0)
      5 6 10 (by decide)).1⟩

/-- C10: restarting with a non-empty queue whose cursor has reached the end
resets only the cursor: the job queue, the aggregate counters and the start
time are untouched (the counter reset at lines 2198-2201 is guarded by
`cursor == 0`, which fails here, and the cursor reset at lines 2210-2211
happens afterwards), so the whole queue is dispatched again from cursor 0
and later `on_batch_worker_finished` calls accumulate onto the previous
run's counters. -/
theorem restart_after_completion_accumulates (s : MailerState) (now : ℚ)
    (hne : s.email_job_queue.isEmpty = false)
    (hcur : s.email_job_queue.length ≤ s.current_job_index_for_dispatch)
    (hidle : (s.queue_processing_active && !s.is_paused_flag) = false) :
    (s.action_start_queue_processing now true).email_job_queue = s.email_job_queue ∧
    (s.action_start_queue_processing now true).total_emails_processed_overall =
      s.total_emails_processed_overall ∧
    (s.action_start_queue_processing now true).total_emails_successful_overall =
      s.total_emails_successful_overall ∧
    (s.action_start_queue_processing now true).overall_processing_start_time =
      s.overall_processing_start_time ∧
    (s.action_start_queue_processing now true).current_job_index_for_dispatch = 0 ∧
    (∀ (w : List EmailJob) (c u : ℕ),
      ((s.action_start_queue_processing now true).on_batch_worker_finished w c
          u).total_emails_processed_overall =
        s.total_emails_processed_overall + c ∧
      ((s.action_start_queue_processing now true).on_batch_worker_finished w c
          u).total_emails_successful_overall =
        s.total_emails_successful_overall + u) := by
  have hcursor_ne : s.current_job_index_for_dispatch ≠ 0 := by
    intro h0
    rw [h0] at hcur
    cases hq : s.email_job_queue with
    | nil => rw [hq] at hne; simp at hne
    | cons a l => rw [hq] at hcur; simp at hcur
  simp only [MailerState.action_start_queue_processing, hne, Bool.false_eq_true, if_false,
    hidle, Bool.not_true]
  simp only [hcursor_ne, if_false, if_pos hcur]
  refine ⟨trivial, trivial, trivial, trivial, trivial, ?_⟩
  intro w c u
  exact ⟨rfl, rfl⟩

/-- Witness for C10: a finished one-job campaign restarted. -/
theorem restart_after_completion_accumulates_witness :
    ((MailerState.mk [⟨1, [4]⟩] 1 [] [] false false 3 2 7 9
        0).email_job_queue.isEmpty = false) ∧
    (((MailerState.mk [⟨1, [4]⟩] 1 [] [] false false 3 2 7 9
        0).action_start_queue_processing 11 true).total_emails_processed_overall = 3) :=
  ⟨by decide,
    by
      have h := (restart_after_completion_accumulates
        (MailerState.mk [⟨1, [4]⟩] 1 [] [] false false 3 2 7 9 0) 11
        (by decide) (by decide) (by decide)).2.1
      simpa using h⟩

/-! ### Campaign preparation — admission of prepared jobs (lines 3136-3150)

`create_fully_prepared_email_job` returns `None` on an internal error and
may return a job whose final recipient list is empty (it only logs a
warning, lines 3645-3646).  The row loop of
`action_prepare_campaign_and_add_to_queue` appends a prepared job to
`email_job_queue` and counts it only when its recipient list is non-empty;
otherwise the row is logged and skipped. -/

def admit_prepared_job (acc : List EmailJob × ℕ) (preparedJob : Option EmailJob) :
    List EmailJob × ℕ :=
  match preparedJob with
  | some job =>
    if job.recipients_to_list.isEmpty then acc
    else (acc.1 ++ [job], acc.2 + 1)
  | none => acc

/-- The row loop: fold the admission filter over the per-row preparation
results, starting from the given queue and prepared-jobs count. -/
def prepare_campaign_rows (rows : List (Option EmailJob))
    (acc : List EmailJob × ℕ) : List EmailJob × ℕ :=
  rows.foldl admit_prepared_job acc

lemma prepare_campaign_rows_recipients (rows : List (Option EmailJob))
    (acc : List EmailJob × ℕ)
    (h : ∀ j ∈ acc.1, j.recipients_to_list ≠ []) :
    ∀ j ∈ (prepare_campaign_rows rows acc).1, j.recipients_to_list ≠ [] := by
  induction rows generalizing acc with
  | nil => exact h
  | cons r rows ih =>
    simp only [prepare_campaign_rows, List.foldl_cons]
    apply ih
    cases r with
    | none => exact h
    | some job =>
      simp only [admit_prepared_job]
      split
      · exact h
      · next hemp =>
        intro j hj
        rcases List.mem_append.mp hj with hj | hj
        · exact h j hj
        · simp only [List.mem_singleton] at hj
          subst hj
          simpa [List.isEmpty_iff] using hemp

/-- C8: every job in the campaign queue built by the row loop (from an
empty queue) has a non-empty recipient list; consequently every job inside
every slice the dispatcher hands to a batch worker — hence every job that
can reach a transport function — has a non-empty recipient list. -/
theorem enqueued_jobs_have_recipients (rows : List (Option EmailJob)) :
    (∀ j ∈ (prepare_campaign_rows rows ([], 0)).1, j.recipients_to_list ≠ []) ∧
    (∀ (batchSize : ℕ) (flags : List (Bool × Bool)) (sl : List EmailJob)
        (j : EmailJob),
      sl ∈ (runDispatch (prepare_campaign_rows rows ([], 0)).1 batchSize
          flags).dispatched_batches →
      j ∈ sl → j.recipients_to_list ≠ []) := by
  have hbase : ∀ j ∈ (prepare_campaign_rows rows ([], 0)).1, j.recipients_to_list ≠ [] :=
    prepare_campaign_rows_recipients rows ([], 0) (by intro j hj; simp at hj)
  refine ⟨hbase, ?_⟩
  intro K flags sl j hsl hj
  have hjoin : j ∈ (runDispatch (prepare_campaign_rows rows ([], 0)).1 K
      flags).dispatched_batches.flatten :=
    List.mem_flatten.mpr ⟨sl, hsl, hj⟩
  rw [runDispatch_join] at hjoin
  exact hbase j (List.take_subset _ _ hjoin)

/-- Witness for C8: one admitted row, one empty-recipient row, one failed
row; a single dispatch attempt. -/
theorem enqueued_jobs_have_recipients_witness :
    ((⟨1, [5]⟩ : EmailJob) ∈
      (prepare_campaign_rows [some ⟨1, [5]⟩, some ⟨2, []⟩, none] ([], 0)).1 ∧
     (⟨1, [5]⟩ : EmailJob).recipients_to_list ≠ []) ∧
    ([(⟨1, [5]⟩ : EmailJob)] ∈
      (runDispatch (prepare_campaign_rows [some ⟨1, [5]⟩, some ⟨2, []⟩, none] ([], 0)).1
        3 [(false, true)]).dispatched_batches ∧
     (⟨1, [5]⟩ : EmailJob).recipients_to_list ≠ []) :=
  ⟨⟨by decide,
    (enqueued_jobs_have_recipients [some ⟨1, [5]⟩, some ⟨2, []⟩, none]).1 ⟨1, [5]⟩
      (by decide)⟩,
   ⟨by decide,
    (enqueued_jobs_have_recipients [some ⟨1, [5]⟩, some ⟨2, []⟩, none]).2 3
      [(false, true)] [⟨1, [5]⟩] ⟨1, [5]⟩ (by decide) (by decide)⟩⟩

/-! ### `process_spintax_in_text` (lines 2913-2950)

Text is a list of characters.  The regex `\{([^\x7b\x7d]*?)\}` finds the
leftmost brace pair whose content contains no brace; `random.choice` is
abstracted into a `choose` oracle over the option lists. -/

/-- Scan after an opening brace: succeed with (content, rest) when the first
brace character reached is a closing brace. -/
def scanBraceFree : List Char → Option (List Char × List Char)
  | [] => none
  | c :: cs =>
    if c = '}' then some ([], cs)
    else if c = '{' then none
    else
      match scanBraceFree cs with
      | some r => some (c :: r.1, r.2)
      | none => none

/-- Leftmost match of the innermost-spintax regex: returns the text before
the match, the content between the braces, and the text after. -/
def findSpin : List Char → Option (List Char × List Char × List Char)
  | [] => none
  | c :: cs =>
    if c = '{' then
      match scanBraceFree cs with
      | some r => some ([], r.1, r.2)
      | none =>
        match findSpin cs with
        | some r => some (c :: r.1, r.2.1, r.2.2)
        | none => none
    else
      match findSpin cs with
      | some r => some (c :: r.1, r.2.1, r.2.2)
      | none => none

/-- Python `str.strip` on a list of characters. -/
def stripChars (s : List Char) : List Char :=
  ((s.dropWhile Char.isWhitespace).reverse.dropWhile Char.isWhitespace).reverse

/-- The `for _ in range(10)` loop of lines 2926-2948: find the innermost
construct; stop if none; if its content has a pipe, split, strip, pick one
option and substitute at the match; otherwise replace the match by itself —
`replace(group(0), group(0), 1)` at line 2946 — leaving the text unchanged. -/
def spintaxLoop (choose : List (List Char) → List Char) :
    ℕ → List Char → List Char
  | 0, t => t
  | n + 1, t =>
    match findSpin t with
    | none => t
    | some r =>
      if r.2.1.contains '|' then
        spintaxLoop choose n (r.1 ++ choose ((r.2.1.splitOn '|').map stripChars) ++ r.2.2)
      else
        spintaxLoop choose n t

/-- `process_spintax_in_text`: quick exit when no brace occurs, else at most
10 innermost-first passes. -/
def process_spintax_in_text (choose : List (List Char) → List Char)
    (t : List Char) : List Char :=
  if !t.contains '{' then t else spintaxLoop choose 10 t

/-- The failing input for C3: a pipe-less brace pair followed by a spintax
construct. -/
def spintaxBlockedInput : List Char :=
  ['{', 'x', '}', ' ', '{', 'A', '|', 'B', '}']

/-- C3 (evaluation at the failing input): because the no-pipe branch
replaces the match with itself, the next loop iteration finds the *same*
first match again, so the later construct is never resolved: for every
choice oracle the pass returns `"\x7bx\x7d \x7bA|B\x7d"` unchanged, with the
spintax construct after the pipe-less pair still unresolved — contradicting
the advance-past-it behaviour the claim (and the comment at lines 2943-2945)
describes. -/
theorem spintax_pipeless_pair_blocks_rest :
    ∀ choose : List (List Char) → List Char,
      process_spintax_in_text choose spintaxBlockedInput = spintaxBlockedInput ∧
      (process_spintax_in_text choose spintaxBlockedInput).contains '|' = true := by
  intro choose
  exact ⟨rfl, rfl⟩

/-! ### Dynamic-tag pass of `_resolve_all_placeholders_and_tags`
(lines 2852-2908) with `generate_random_string` and `CHAR_SETS`
(lines 447-461)

`random.choice` inside `generate_random_string` is abstracted into an index
oracle `pick : ℕ → ℕ` consumed through a counter; `datetime.now()` is the
explicit `dateStr` argument.  The per-job boundary-tag cache is an
insertion-ordered association list; the `boundary_log` field is a ghost log
recording every boundary-tag resolution as a (tag text, value) pair. -/

def asciiLowercase : List Char := "abcdefghijklmnopqrstuvwxyz".toList

def asciiUppercase : List Char := "ABCDEFGHIJKLMNOPQRSTUVWXYZ".toList

def asciiLetters : List Char := asciiLowercase ++ asciiUppercase

def digitChars : List Char := "0123456789".toList

/-- The `'s'` charset of `CHAR_SETS`:
`!@#$%^&*()-_=+[]\x7b\x7d;:'",.<>/?~` followed by a backquote and a pipe. -/
def symbolChars : List Char :=
  "!@#$%^&*()-_=+[]".toList ++ [Char.ofNat 123, Char.ofNat 125] ++
    ";:".toList ++ [Char.ofNat 39] ++ "\",.<>/?~".toList ++ [Char.ofNat 96, '|']

/-- The `CHAR_SETS` dictionary (lines 447-456). -/
def CHAR_SETS (key : List Char) : Option (List Char) :=
  if key = ['n'] then some digitChars
  else if key = ['l'] then some asciiLowercase
  else if key = ['u'] then some asciiUppercase
  else if key = ['s'] then some symbolChars
  else if key = ['a'] then some (asciiLetters ++ digitChars)
  else if key = ['l', 'u'] then some asciiLetters
  else if key = ['l', 'n'] then some (asciiLowercase ++ digitChars)
  else if key = ['u', 'n'] then some (asciiUppercase ++ digitChars)
  else none

/-- Lookup with the two fallbacks of lines 459-460: unknown keys fall back
to `CHAR_SETS['a']`, and so would an empty set. -/
def charsToUse (key : List Char) : List Char :=
  let c := (CHAR_SETS key).getD (asciiLetters ++ digitChars)
  if c.isEmpty then asciiLetters ++ digitChars else c

/-- `generate_random_string` (lines 458-461): a string of `n` characters
drawn from the charset, one `random.choice` (one `pick` consumption) per
character; returns the string and the advanced oracle counter. -/
def generate_random_string (pick : ℕ → ℕ) (ctr : ℕ) (n : ℕ) (charSetKey : List Char) :
    List Char × ℕ :=
  let chars := charsToUse charSetKey
  ((List.range n).map (fun i => chars.getD (pick (ctr + i) % chars.length) 'a'), ctr + n)

/-- The job-specific context dictionary entries read by the dynamic-tag
replacer (`job_specific_context_dict`, built at lines 3524-3540 and
3545-3549); a key absent from the dictionary behaves as the empty string
(`dict.get(key, "")`). -/
structure JobContext where
  email_id : List Char
  current_recipient_email : List Char
  current_from_name_for_job : List Char
  current_subject_for_job : List Char
  smtp_username_for_tag : List Char
  smtp_server_nickname_for_tag : List Char

/-- Mutable state threaded through one job's resolution: the boundary-tag
cache created empty at line 3519, the random-oracle counter, and the ghost
log of boundary resolutions. -/
structure ResolveState where
  boundary_tag_cache : List (List Char × List Char)
  ctr : ℕ
  boundary_log : List (List Char × List Char)
deriving DecidableEq

def emptyResolveState : ResolveState := ⟨[], 0, []⟩

def lookupCache (cache : List (List Char × List Char)) (k : List Char) :
    Option (List Char) :=
  (cache.find? (fun p => p.1 == k)).map Prod.snd

/-- Boundary-tag resolution (lines 2856-2859 and 2896-2899): if the literal
matched tag text is cached, return the cached value; otherwise generate a
fresh value, cache it under the tag text, and return it.  Every resolution
is recorded in the ghost log. -/
def resolveBoundaryTag (pick : ℕ → ℕ) (st : ResolveState) (fullTag : List Char)
    (n : ℕ) (charSetKey : List Char) : List Char × ResolveState :=
  match lookupCache st.boundary_tag_cache fullTag with
  | some v => (v, { st with boundary_log := st.boundary_log ++ [(fullTag, v)] })
  | none =>
    let g := generate_random_string pick st.ctr n charSetKey
    (g.1, { boundary_tag_cache := st.boundary_tag_cache ++ [(fullTag, g.1)]
            ctr := g.2
            boundary_log := st.boundary_log ++ [(fullTag, g.1)] })

/-- The literal `#\x7b\x7b[token]\x7d\x7d` boundary tag. -/
def hashTokenTag : List Char :=
  ['#', '{', '{', '[', 't', 'o', 'k', 'e', 'n', ']', '}', '}']

/-- Lazy scan of `(.*?)\]\}\}`: the content before the first `]\x7d\x7d`
and the rest after it. -/
def findCloseTag : List Char → Option (List Char × List Char)
  | [] => none
  | c :: cs =>
    if c = ']' ∧ cs.take 2 = ['}', '}'] then some ([], cs.drop 2)
    else
      match findCloseTag cs with
      | some r => some (c :: r.1, r.2)
      | none => none

/-- `re.match(r"\\\x7b\\\x7b\\[(.*?)\\]\\\x7d\\\x7d", full)` group 1: the
content of a `\x7b\x7b[...]\x7d\x7d` tag. -/
def innerTagContent (fullTag : List Char) : Option (List Char) :=
  match fullTag with
  | '{' :: '{' :: '[' :: rest => (findCloseTag rest).map Prod.fst
  | _ => none

def isCharSetChar (c : Char) : Bool :=
  c = 'n' || c = 'a' || c = 'l' || c = 'u' || c = 's'

/-- The `([nalus]\x7b1,2\x7d)_(\d+)$` part of the variable-length tag regex
(line 2889), with the greedy two-character attempt tried first. -/
def parseVarLenTail : List Char → Option (List Char × List Char)
  | c1 :: rest =>
    if isCharSetChar c1 then
      match rest with
      | c2 :: '_' :: ds =>
        if isCharSetChar c2 && !ds.isEmpty && ds.all Char.isDigit then
          some ([c1, c2], ds)
        else
          match rest with
          | '_' :: ds2 =>
            if !ds2.isEmpty && ds2.all Char.isDigit then some ([c1], ds2) else none
          | _ => none
      | '_' :: ds2 =>
        if !ds2.isEmpty && ds2.all Char.isDigit then some ([c1], ds2) else none
      | _ => none
    else none
  | [] => none

/-- `^(rnd|bnd)([nalus]\x7b1,2\x7d)_(\d+)$` (line 2889): the boundary flag,
the charset suffix, and the digit string. -/
def parseVarLenTag (key : List Char) : Option (Bool × List Char × List Char) :=
  match key with
  | 'r' :: 'n' :: 'd' :: rest => (parseVarLenTail rest).map (fun p => (false, p.1, p.2))
  | 'b' :: 'n' :: 'd' :: rest => (parseVarLenTail rest).map (fun p => (true, p.1, p.2))
  | _ => none

/-- `int` on a digit string. -/
def digitsToNat (ds : List Char) : ℕ :=
  ds.foldl (fun a c => a * 10 + (c.toNat - 48)) 0

def toLC (s : String) : List Char := s.toList

/-- `dynamic_tag_replacer_func` (lines 2852-2903): dispatch on the matched
tag text.  Unrecognized content falls through to line 2903 and returns the
matched text unchanged; the function is total (it never raises). -/
def dynamic_tag_replacer (pick : ℕ → ℕ) (dateStr : List Char) (ctx : JobContext)
    (st : ResolveState) (fullTag : List Char) : List Char × ResolveState :=
  if fullTag = hashTokenTag then
    resolveBoundaryTag pick st fullTag 12 ['a']
  else
    match innerTagContent fullTag with
    | none => (fullTag, st)
    | some content =>
      let key := stripChars content
      if key = toLC "ide" then (ctx.email_id, st)
      else if key = toLC "date" then (dateStr, st)
      else if key = toLC "tag" then
        let g := generate_random_string pick st.ctr 8 ['a']
        (g.1, { st with ctr := g.2 })
      else if key = toLC "rnd" then
        let g := generate_random_string pick st.ctr 18 ['a']
        (g.1, { st with ctr := g.2 })
      else if key = toLC "fromname" then (ctx.current_from_name_for_job, st)
      else if key = toLC "subject" then (ctx.current_subject_for_job, st)
      else if key = toLC "to" then (ctx.current_recipient_email, st)
      else if key = toLC "name" then
        (if ctx.current_recipient_email.contains '@' then
          ctx.current_recipient_email.takeWhile (fun c => c != '@')
         else [], st)
      else if key = toLC "smtp" then (ctx.smtp_username_for_tag, st)
      else if key = toLC "smtp_name" then (ctx.smtp_server_nickname_for_tag, st)
      else
        match parseVarLenTag key with
        | some r =>
          let n := digitsToNat r.2.2
          if 0 < n ∧ n ≤ 1024 then
            if r.1 then resolveBoundaryTag pick st fullTag n r.2.1
            else
              let g := generate_random_string pick st.ctr n r.2.1
              (g.1, { st with ctr := g.2 })
          else (fullTag, st)
        | none => (fullTag, st)

/-- Leftmost match of the alternation
`(#\\\x7b\\\x7b\\[token\\]\\\x7d\\\x7d|\\\x7b\\\x7b\\[.*?\\]\\\x7d\\\x7d)`
(line 2907) at the current position. -/
def matchTagHere (t : List Char) : Option (List Char × List Char) :=
  if t.take 12 = hashTokenTag then some (hashTokenTag, t.drop 12)
  else
    match t with
    | '{' :: '{' :: '[' :: rest =>
      (findCloseTag rest).map
        (fun p => ('{' :: '{' :: '[' :: (p.1 ++ [']', '}', '}']), p.2))
    | _ => none

/-- Leftmost match of the dynamic-tag pattern anywhere in the text:
(text before, matched tag, text after). -/
def findDynTag : List Char → Option (List Char × List Char × List Char)
  | [] => none
  | c :: cs =>
    match matchTagHere (c :: cs) with
    | some m => some ([], m.1, m.2)
    | none =>
      match findDynTag cs with
      | some r => some (c :: r.1, r.2.1, r.2.2)
      | none => none

lemma findCloseTag_length {l p r : List Char}
    (h : findCloseTag l = some (p, r)) : l.length = p.length + 3 + r.length := by
  induction l generalizing p r with
  | nil => simp [findCloseTag] at h
  | cons c cs ih =>
    simp only [findCloseTag] at h
    split at h
    · next hc =>
      obtain ⟨hp, hr⟩ := Prod.mk.injEq _ _ _ _ ▸ Option.some.inj h
      have h2 : cs.length ≥ 2 := by
        have := congrArg List.length hc.2
        simp [List.length_take] at this
        omega
      subst hp; subst hr
      simp [List.length_drop]
      omega
    · revert h
      cases hrec : findCloseTag cs with
      | none => intro h; cases h
      | some q =>
        intro h
        obtain ⟨hp, hr⟩ := Prod.mk.injEq _ _ _ _ ▸ Option.some.inj h
        have hq := ih (p := q.1) (r := q.2) (by rw [hrec])
        subst hp; subst hr
        simp only [List.length_cons]
        omega

lemma matchTagHere_rest_length {t m r : List Char}
    (h : matchTagHere t = some (m, r)) : r.length < t.length := by
  simp only [matchTagHere] at h
  split at h
  · next htake =>
    obtain ⟨hm, hr⟩ := Prod.mk.injEq _ _ _ _ ▸ Option.some.inj h
    have h12 : t.length ≥ 12 := by
      have := congrArg List.length htake
      simp [List.length_take, hashTokenTag] at this
      omega
    subst hr
    simp [List.length_drop]
    omega
  · revert h
    split
    · next rest heq =>
      cases hrec : findCloseTag rest with
      | none => intro h; simp [hrec] at h
      | some q =>
        intro h
        simp only [Option.map_some'] at h
        obtain ⟨hm, hr⟩ := Prod.mk.injEq _ _ _ _ ▸ Option.some.inj h
        have hq := findCloseTag_length (p := q.1) (r := q.2) (by rw [hrec])
        subst hr
        simp only [List.length_cons]
        omega
    · intro h; cases h

lemma findDynTag_rest_length {t pre m r : List Char}
    (h : findDynTag t = some (pre, m, r)) : r.length < t.length := by
  induction t generalizing pre m r with
  | nil => simp [findDynTag] at h
  | cons c cs ih =>
    simp only [findDynTag] at h
    revert h
    cases hm : matchTagHere (c :: cs) with
    | some q =>
      intro h
      obtain ⟨hp, hmr⟩ := Prod.mk.injEq _ _ _ _ ▸ Option.some.inj h
      obtain ⟨hm2, hr⟩ := Prod.mk.injEq _ _ _ _ ▸ hmr
      subst hr
      exact matchTagHere_rest_length (m := q.1) (by rw [hm])
    | none =>
      cases hrec : findDynTag cs with
      | none => intro h; cases h
      | some q =>
        intro h
        obtain ⟨hp, hmr⟩ := Prod.mk.injEq _ _ _ _ ▸ Option.some.inj h
        obtain ⟨hm2, hr⟩ := Prod.mk.injEq _ _ _ _ ▸ hmr
        subst hr
        have := ih (show findDynTag cs = some (q.1, q.2.1, q.2.2) by rw [hrec])
        simp only [List.length_cons]
        omega

/-- The global substitution `dynamic_tag_pattern_regex.sub(...)` of line
2908: find the leftmost match, replace it through
`dynamic_tag_replacer_func` (threading the cache state), continue after the
match in the original text. -/
def dynamic_tag_sub (pick : ℕ → ℕ) (dateStr : List Char) (ctx : JobContext)
    (st : ResolveState) (t : List Char) : List Char × ResolveState :=
  match hfind : findDynTag t with
  | none => (t, st)
  | some r =>
    let rep := dynamic_tag_replacer pick dateStr ctx st r.2.1
    let tail := dynamic_tag_sub pick dateStr ctx rep.2 r.2.2
    (r.1 ++ rep.1 ++ tail.1, tail.2)
termination_by t.length
decreasing_by
  exact findDynTag_rest_length hfind

/-- One job's resolution sequence (lines 3543-3601): the fields of the job
(subject, from-name, bodies, header values) are resolved one after the
other, threading the single per-job cache created empty at line 3519. -/
def resolve_job_fields (pick : ℕ → ℕ) (dateStr : List Char) (ctx : JobContext)
    (fields : List (List Char)) : List (List Char) × ResolveState :=
  fields.foldl
    (fun acc f =>
      let r := dynamic_tag_sub pick dateStr ctx acc.2 f
      (acc.1 ++ [r.1], r.2))
    ([], emptyResolveState)

/-- A whole campaign's preparation: each job is resolved independently with
its own oracle, context, fields — and, by `resolve_job_fields`, its own
fresh empty cache. -/
def prepare_all_jobs
    (jobs : List ((ℕ → ℕ) × List Char × JobContext × List (List Char))) :
    List (List (List Char) × ResolveState) :=
  jobs.map (fun j => resolve_job_fields j.1 j.2.1 j.2.2.1 j.2.2.2)

/-- Coherence of the boundary-tag cache with the ghost log: every logged
resolution (tag, value) is what the cache currently stores for that tag. -/
def CacheOk (st : ResolveState) : Prop :=
  ∀ p ∈ st.boundary_log, lookupCache st.boundary_tag_cache p.1 = some p.2

lemma lookupCache_append_of_some {cache : List (List Char × List Char)}
    {k v : List Char} (q : List Char × List Char)
    (h : lookupCache cache k = some v) :
    lookupCache (cache ++ [q]) k = some v := by
  simp only [lookupCache, List.find?_append] at h ⊢
  cases hf : cache.find? (fun p => p.1 == k) with
  | none => rw [hf] at h; cases h
  | some w => rw [hf] at h; simp [Option.or, h, hf]

lemma lookupCache_append_self {cache : List (List Char × List Char)}
    {k v : List Char} (h : lookupCache cache k = none) :
    lookupCache (cache ++ [(k, v)]) k = some v := by
  simp only [lookupCache, List.find?_append] at h ⊢
  cases hf : cache.find? (fun p => p.1 == k) with
  | some w => rw [hf] at h; cases h
  | none => simp [Option.or, hf]

lemma resolveBoundaryTag_cache_mono (pick : ℕ → ℕ) (st : ResolveState)
    (fullTag : List Char) (n : ℕ) (key : List Char) {k v : List Char}
    (h : lookupCache st.boundary_tag_cache k = some v) :
    lookupCache (resolveBoundaryTag pick st fullTag n key).2.boundary_tag_cache k =
      some v := by
  unfold resolveBoundaryTag
  cases hl : lookupCache st.boundary_tag_cache fullTag with
  | some w => exact h
  | none => exact lookupCache_append_of_some _ h

lemma resolveBoundaryTag_cacheOk (pick : ℕ → ℕ) (st : ResolveState)
    (fullTag : List Char) (n : ℕ) (key : List Char) (h : CacheOk st) :
    CacheOk (resolveBoundaryTag pick st fullTag n key).2 := by
  unfold resolveBoundaryTag
  cases hl : lookupCache st.boundary_tag_cache fullTag with
  | some w =>
    intro p hp
    rcases List.mem_append.mp hp with hp | hp
    · exact h p hp
    · simp only [List.mem_singleton] at hp
      subst hp
      exact hl
  | none =>
    intro p hp
    rcases List.mem_append.mp hp with hp | hp
    · exact lookupCache_append_of_some _ (h p hp)
    · simp only [List.mem_singleton] at hp
      subst hp
      exact lookupCache_append_self hl

/-- Every branch of the replacer either leaves the cache and the log
untouched or is a boundary-tag resolution on the matched tag text. -/
lemma dynamic_tag_replacer_shape (pick : ℕ → ℕ) (dateStr : List Char)
    (ctx : JobContext) (st : ResolveState) (fullTag : List Char) :
    ((dynamic_tag_replacer pick dateStr ctx st fullTag).2.boundary_tag_cache =
        st.boundary_tag_cache ∧
      (dynamic_tag_replacer pick dateStr ctx st fullTag).2.boundary_log =
        st.boundary_log) ∨
    (∃ n key, dynamic_tag_replacer pick dateStr ctx st fullTag =
        resolveBoundaryTag pick st fullTag n key) := by
  unfold dynamic_tag_replacer
  by_cases hh : fullTag = hashTokenTag
  · rw [if_pos hh]; exact Or.inr ⟨12, ['a'], rfl⟩
  rw [if_neg hh]
  cases hin : innerTagContent fullTag with
  | none => exact Or.inl ⟨rfl, rfl⟩
  | some content =>
    dsimp only
    by_cases h1 : stripChars content = toLC "ide"
    · rw [if_pos h1]; exact Or.inl ⟨rfl, rfl⟩
    rw [if_neg h1]
    by_cases h2 : stripChars content = toLC "date"
    · rw [if_pos h2]; exact Or.inl ⟨rfl, rfl⟩
    rw [if_neg h2]
    by_cases h3 : stripChars content = toLC "tag"
    · rw [if_pos h3]; exact Or.inl ⟨rfl, rfl⟩
    rw [if_neg h3]
    by_cases h4 : stripChars content = toLC "rnd"
    · rw [if_pos h4]; exact Or.inl ⟨rfl, rfl⟩
    rw [if_neg h4]
    by_cases h5 : stripChars content = toLC "fromname"
    · rw [if_pos h5]; exact Or.inl ⟨rfl, rfl⟩
    rw [if_neg h5]
    by_cases h6 : stripChars content = toLC "subject"
    · rw [if_pos h6]; exact Or.inl ⟨rfl, rfl⟩
    rw [if_neg h6]
    by_cases h7 : stripChars content = toLC "to"
    · rw [if_pos h7]; exact Or.inl ⟨rfl, rfl⟩
    rw [if_neg h7]
    by_cases h8 : stripChars content = toLC "name"
    · rw [if_pos h8]; exact Or.inl ⟨rfl, rfl⟩
    rw [if_neg h8]
    by_cases h9 : stripChars content = toLC "smtp"
    · rw [if_pos h9]; exact Or.inl ⟨rfl, rfl⟩
    rw [if_neg h9]
    by_cases h10 : stripChars content = toLC "smtp_name"
    · rw [if_pos h10]; exact Or.inl ⟨rfl, rfl⟩
    rw [if_neg h10]
    cases hp : parseVarLenTag (stripChars content) with
    | none => exact Or.inl ⟨rfl, rfl⟩
    | some r =>
      dsimp only
      by_cases hb : 0 < digitsToNat r.2.2 ∧ digitsToNat r.2.2 ≤ 1024
      · rw [if_pos hb]
        by_cases hr : r.1 = true
        · rw [if_pos hr]; exact Or.inr ⟨digitsToNat r.2.2, r.2.1, rfl⟩
        · rw [if_neg hr]; exact Or.inl ⟨rfl, rfl⟩
      · rw [if_neg hb]; exact Or.inl ⟨rfl, rfl⟩

lemma dynamic_tag_replacer_cache_mono (pick : ℕ → ℕ) (dateStr : List Char)
    (ctx : JobContext) (st : ResolveState) (fullTag : List Char) {k v : List Char}
    (h : lookupCache st.boundary_tag_cache k = some v) :
    lookupCache
      (dynamic_tag_replacer pick dateStr ctx st fullTag).2.boundary_tag_cache k =
      some v := by
  rcases dynamic_tag_replacer_shape pick dateStr ctx st fullTag with
    ⟨hc, _⟩ | ⟨n, key, heq⟩
  · rw [hc]; exact h
  · rw [heq]; exact resolveBoundaryTag_cache_mono _ _ _ _ _ h

lemma dynamic_tag_replacer_cacheOk (pick : ℕ → ℕ) (dateStr : List Char)
    (ctx : JobContext) (st : ResolveState) (fullTag : List Char) (h : CacheOk st) :
    CacheOk (dynamic_tag_replacer pick dateStr ctx st fullTag).2 := by
  rcases dynamic_tag_replacer_shape pick dateStr ctx st fullTag with
    ⟨hc, hl⟩ | ⟨n, key, heq⟩
  · intro p hp
    rw [hl] at hp
    rw [hc]
    exact h p hp
  · rw [heq]
    exact resolveBoundaryTag_cacheOk _ _ _ _ _ h

lemma dynamic_tag_sub_cache_mono (pick : ℕ → ℕ) (dateStr : List Char)
    (ctx : JobContext) (st : ResolveState) (t : List Char) :
    ∀ k v : List Char, lookupCache st.boundary_tag_cache k = some v →
      lookupCache
        (dynamic_tag_sub pick dateStr ctx st t).2.boundary_tag_cache k = some v := by
  induction st, t using dynamic_tag_sub.induct pick dateStr ctx with
  | case1 st t hfind =>
    intro k v h
    rw [dynamic_tag_sub, hfind]
    exact h
  | case2 st t r hfind rep ih =>
    intro k v h
    rw [dynamic_tag_sub, hfind]
    exact ih k v (dynamic_tag_replacer_cache_mono _ _ _ _ _ h)

lemma dynamic_tag_sub_cacheOk (pick : ℕ → ℕ) (dateStr : List Char)
    (ctx : JobContext) (st : ResolveState) (t : List Char) (h : CacheOk st) :
    CacheOk (dynamic_tag_sub pick dateStr ctx st t).2 := by
  induction st, t using dynamic_tag_sub.induct pick dateStr ctx with
  | case1 st t hfind =>
    rw [dynamic_tag_sub, hfind]
    exact h
  | case2 st t r hfind rep ih =>
    rw [dynamic_tag_sub, hfind]
    exact ih (dynamic_tag_replacer_cacheOk _ _ _ _ _ h)

lemma resolve_job_fields_cacheOk (pick : ℕ → ℕ) (dateStr : List Char)
    (ctx : JobContext) (fields : List (List Char)) :
    CacheOk (resolve_job_fields pick dateStr ctx fields).2 := by
  suffices hgen : ∀ (acc : List (List Char) × ResolveState), CacheOk acc.2 →
      CacheOk ((fields.foldl
        (fun acc f =>
          let r := dynamic_tag_sub pick dateStr ctx acc.2 f
          (acc.1 ++ [r.1], r.2)) acc).2) by
    exact hgen ([], emptyResolveState) (by intro p hp; cases hp)
  induction fields with
  | nil => intro acc h; exact h
  | cons f fs ih =>
    intro acc h
    exact ih _ (dynamic_tag_sub_cacheOk _ _ _ _ _ h)

/-- C5: (a) within one job preparation — one threading of the per-job
boundary-tag cache, created empty, through all of that job's field
resolutions — any two resolutions of the same boundary tag text produce the
identical value; (b) the preparation of a list of jobs resolves each job by
an independent application of `resolve_job_fields` (which starts from the
empty cache), so nothing carries over between jobs. -/
theorem boundary_tags_stable_within_job_and_independent_across_jobs :
    (∀ (pick : ℕ → ℕ) (dateStr : List Char) (ctx : JobContext)
        (fields : List (List Char)) (tag v1 v2 : List Char),
      (tag, v1) ∈ (resolve_job_fields pick dateStr ctx fields).2.boundary_log →
      (tag, v2) ∈ (resolve_job_fields pick dateStr ctx fields).2.boundary_log →
      v1 = v2) ∧
    (∀ (jobs : List ((ℕ → ℕ) × List Char × JobContext × List (List Char)))
        (i : ℕ) (h1 : i < jobs.length) (h2 : i < (prepare_all_jobs jobs).length),
      (prepare_all_jobs jobs).get ⟨i, h2⟩ =
        resolve_job_fields (jobs.get ⟨i, h1⟩).1 (jobs.get ⟨i, h1⟩).2.1
          (jobs.get ⟨i, h1⟩).2.2.1 (jobs.get ⟨i, h1⟩).2.2.2) := by
  constructor
  · intro pick dateStr ctx fields tag v1 v2 hm1 hm2
    have hok := resolve_job_fields_cacheOk pick dateStr ctx fields
    have e1 := hok (tag, v1) hm1
    have e2 := hok (tag, v2) hm2
    rw [e1] at e2
    exact Option.some.inj e2
  · intro jobs i h1 h2
    simp [prepare_all_jobs]

def pickZero : ℕ → ℕ := fun _ => 0

def ctxEmpty : JobContext := ⟨[], [], [], [], [], []⟩

/-- The tag text `\x7b\x7b[bndn_2]\x7d\x7d`. -/
def tagBndn2 : List Char :=
  ['{', '{', '[', 'b', 'n', 'd', 'n', '_', '2', ']', '}', '}']

def stBndn2 : ResolveState :=
  ⟨[(tagBndn2, ['0', '0'])], 2, [(tagBndn2, ['0', '0'])]⟩

lemma dynamic_tag_sub_bndn2_first :
    dynamic_tag_sub pickZero [] ctxEmpty emptyResolveState tagBndn2 =
      (['0', '0'], stBndn2) := by
  have e1 : findDynTag tagBndn2 = some ([], tagBndn2, []) := by decide
  have e2 : dynamic_tag_replacer pickZero [] ctxEmpty emptyResolveState tagBndn2 =
      (['0', '0'], stBndn2) := by decide
  rw [dynamic_tag_sub, e1]
  dsimp only
  rw [e2, dynamic_tag_sub]
  decide

lemma dynamic_tag_sub_bndn2_second :
    dynamic_tag_sub pickZero [] ctxEmpty stBndn2 tagBndn2 =
      (['0', '0'],
        ⟨[(tagBndn2, ['0', '0'])], 2,
          [(tagBndn2, ['0', '0']), (tagBndn2, ['0', '0'])]⟩) := by
  have e1 : findDynTag tagBndn2 = some ([], tagBndn2, []) := by decide
  have e3 : dynamic_tag_replacer pickZero [] ctxEmpty stBndn2 tagBndn2 =
      (['0', '0'],
        ⟨[(tagBndn2, ['0', '0'])], 2,
          [(tagBndn2, ['0', '0']), (tagBndn2, ['0', '0'])]⟩) := by decide
  rw [dynamic_tag_sub, e1]
  dsimp only
  rw [e3, dynamic_tag_sub]
  decide

lemma resolve_job_fields_bndn2_log :
    (resolve_job_fields pickZero [] ctxEmpty [tagBndn2, tagBndn2]).2.boundary_log =
      [(tagBndn2, ['0', '0']), (tagBndn2, ['0', '0'])] := by
  simp only [resolve_job_fields, List.foldl_cons, List.foldl_nil]
  rw [dynamic_tag_sub_bndn2_first]
  dsimp only
  rw [dynamic_tag_sub_bndn2_second]

/-- Witness for C5: the boundary tag `\x7b\x7b[bndn_2]\x7d\x7d` resolved in
two fields of one job yields the same two-digit string both times; and a
one-job campaign resolves its job exactly as a standalone resolution with a
fresh cache. -/
theorem boundary_tags_stable_witness :
    (tagBndn2, ['0', '0']) ∈
      (resolve_job_fields pickZero [] ctxEmpty [tagBndn2, tagBndn2]).2.boundary_log ∧
    (['0', '0'] : List Char) = ['0', '0'] ∧
    (prepare_all_jobs [(pickZero, [], ctxEmpty, [tagBndn2])]).get
        ⟨0, by simp [prepare_all_jobs]⟩ =
      resolve_job_fields pickZero [] ctxEmpty [tagBndn2] := by
  have hmem : (tagBndn2, ['0', '0']) ∈
      (resolve_job_fields pickZero [] ctxEmpty [tagBndn2, tagBndn2]).2.boundary_log := by
    rw [resolve_job_fields_bndn2_log]
    exact List.mem_cons_self _ _
  exact ⟨hmem,
    boundary_tags_stable_within_job_and_independent_across_jobs.1 pickZero [] ctxEmpty
      [tagBndn2, tagBndn2] tagBndn2 ['0', '0'] ['0', '0'] hmem hmem,
    boundary_tags_stable_within_job_and_independent_across_jobs.2
      [(pickZero, [], ctxEmpty, [tagBndn2])] 0 (by simp) (by simp [prepare_all_jobs])⟩

/-- The closed charset family named by the specification:
`\x7bn, a, l, u, s, lu, ln, un\x7d`. -/
def specCharsetFamily : List (List Char) :=
  [['n'], ['a'], ['l'], ['u'], ['s'], ['l', 'u'], ['l', 'n'], ['u', 'n']]

/-- Modelled from the claim's wording: tag content the claim considers a
recognized generator — one of the simple names, a context-mirror name, or
`rnd<cs>_N` / `bnd<cs>_N` with `cs` in the closed family of eight and
`N ∈ (0, 1024]`. -/
def claimRecognizedContent (k : List Char) : Bool :=
  k == toLC "ide" || k == toLC "date" || k == toLC "tag" || k == toLC "rnd" ||
  k == toLC "fromname" || k == toLC "subject" || k == toLC "to" || k == toLC "name" ||
  k == toLC "smtp" || k == toLC "smtp_name" ||
  ([toLC "rnd", toLC "bnd"].any fun pre =>
    specCharsetFamily.any fun cs =>
      (k.take pre.length == pre) &&
      ((k.drop pre.length).take cs.length == cs) &&
      (match k.drop (pre.length + cs.length) with
       | '_' :: ds =>
         !ds.isEmpty && ds.all Char.isDigit &&
           decide (0 < digitsToNat ds) && decide (digitsToNat ds ≤ 1024)
       | _ => false))

/-- Tag content recognized by the code: the same simple names, but the
charset suffix of a variable-length tag is *any* one- or two-character
string over `n, a, l, u, s` (line 2889), with `N ∈ (0, 1024]`. -/
def amendedRecognizedContent (k : List Char) : Bool :=
  k == toLC "ide" || k == toLC "date" || k == toLC "tag" || k == toLC "rnd" ||
  k == toLC "fromname" || k == toLC "subject" || k == toLC "to" || k == toLC "name" ||
  k == toLC "smtp" || k == toLC "smtp_name" ||
  (match parseVarLenTag k with
   | some r => decide (0 < digitsToNat r.2.2) && decide (digitsToNat r.2.2 ≤ 1024)
   | none => false)

/-- The tag text `\x7b\x7b[rndal_5]\x7d\x7d`. -/
def tagRndal5 : List Char :=
  ['{', '{', '[', 'r', 'n', 'd', 'a', 'l', '_', '5', ']', '}', '}']

/-- C6 counterexample: `rndal_5` is *not* in the claim's closed charset
family (`al` is not one of the eight), yet the replacer does not leave the
tag unchanged — the regex `[nalus]\x7b1,2\x7d` accepts `al` and
`generate_random_string` falls back to the alphanumeric charset, so the tag
is replaced by a fresh 5-character string. -/
theorem unrecognized_per_claim_tag_still_replaced :
    claimRecognizedContent (toLC "rndal_5") = false ∧
    innerTagContent tagRndal5 = some (toLC "rndal_5") ∧
    (dynamic_tag_replacer pickZero [] ctxEmpty emptyResolveState tagRndal5).1 ≠
      tagRndal5 := by
  refine ⟨by decide, by decide, by decide⟩

/-- C6 as amended: for every dynamic-tag occurrence whose (stripped) content
is recognized neither as a simple generator name nor as a variable-length
tag per the code's regex — prefix `rnd`/`bnd`, any one- or two-character
suffix over `n,a,l,u,s`, and `N ∈ (0, 1024]` — the replacer returns the
matched tag text unchanged with the state untouched (and, being a total
function, never raises). -/
theorem unrecognized_content_left_unchanged (pick : ℕ → ℕ) (dateStr : List Char)
    (ctx : JobContext) (st : ResolveState) (fullTag content : List Char)
    (hinner : innerTagContent fullTag = some content)
    (hunrec : amendedRecognizedContent (stripChars content) = false) :
    dynamic_tag_replacer pick dateStr ctx st fullTag = (fullTag, st) := by
  have hne : fullTag ≠ hashTokenTag := by
    intro he
    rw [he] at hinner
    simp [innerTagContent, hashTokenTag] at hinner
  simp only [amendedRecognizedContent, Bool.or_eq_false_iff, beq_eq_false_iff_ne] at hunrec
  obtain ⟨⟨⟨⟨⟨⟨⟨⟨⟨⟨h1, h2⟩, h3⟩, h4⟩, h5⟩, h6⟩, h7⟩, h8⟩, h9⟩, h10⟩, hp⟩ := hunrec
  unfold dynamic_tag_replacer
  rw [if_neg hne, hinner]
  dsimp only
  rw [if_neg h1, if_neg h2, if_neg h3, if_neg h4, if_neg h5, if_neg h6, if_neg h7,
    if_neg h8, if_neg h9, if_neg h10]
  cases hpv : parseVarLenTag (stripChars content) with
  | none => rfl
  | some r =>
    rw [hpv] at hp
    dsimp only at hp
    simp only [Bool.and_eq_false_iff, decide_eq_false_iff_not] at hp
    dsimp only
    rw [if_neg (by tauto)]

/-- The tag text `\x7b\x7b[foo]\x7d\x7d`. -/
def tagFoo : List Char := ['{', '{', '[', 'f', 'o', 'o', ']', '}', '}']

/-- Witness for the amended C6: the unrecognized content `foo` is returned
unchanged. -/
theorem unrecognized_content_left_unchanged_witness :
    innerTagContent tagFoo = some (toLC "foo") ∧
    amendedRecognizedContent (stripChars (toLC "foo")) = false ∧
    dynamic_tag_replacer pickZero [] ctxEmpty emptyResolveState tagFoo =
      (tagFoo, emptyResolveState) :=
  ⟨by decide, by decide,
    unrecognized_content_left_unchanged pickZero [] ctxEmpty emptyResolveState tagFoo
      (toLC "foo") (by decide) (by decide)⟩

end AppsScript
